import Mathlib

/-!
Verification of the handwriting-synthesis model core (`modules.py`).

The Python source is shallowly embedded: tensors indexed by `Fin`-functions
over the real numbers, the learned linear maps and LSTM cells abstracted as
opaque functions (they are library components, not part of this repository),
and randomness passed in explicitly as oracle arguments.
-/

open Real

noncomputable section

namespace HandwritingSynthesis

/-- `MixtureOfBivariateNormal` parameters for one (batch, time) position:
per mixture component `k < K` a log-weight, a 2D mean, a 2D standard
deviation and a correlation.  Mirrors the constructor of
`MixtureOfBivariateNormal` in `modules.py` (which stores the four tensors
unchecked). -/
structure MixtureOfBivariateNormal (K : ℕ) where
  log_pi : Fin K → ℝ
  mu : Fin K → Fin 2 → ℝ
  sigma : Fin K → Fin 2 → ℝ
  rho : Fin K → ℝ

/-- `torch.logsumexp` over the mixture axis: `log (Σ_k exp (a k))`. -/
def logsumexp {K : ℕ} (a : Fin K → ℝ) : ℝ :=
  Real.log (∑ k, Real.exp (a k))

namespace MixtureOfBivariateNormal

variable {K : ℕ}

/-- `t = (x - self.mu) / self.sigma` from `log_prob`. -/
def t (p : MixtureOfBivariateNormal K) (x : Fin 2 → ℝ) (k : Fin K) (i : Fin 2) : ℝ :=
  (x i - p.mu k i) / p.sigma k i

/-- `Z = (t ** 2).sum(-1) - 2 * self.rho * torch.prod(t, -1)` from `log_prob`. -/
def Z (p : MixtureOfBivariateNormal K) (x : Fin 2 → ℝ) (k : Fin K) : ℝ :=
  (∑ i, p.t x k i ^ 2) - 2 * p.rho k * ∏ i, p.t x k i

/-- `num = -Z / (2 * (1 - self.rho ** 2))` from `log_prob`. -/
def num (p : MixtureOfBivariateNormal K) (x : Fin 2 → ℝ) (k : Fin K) : ℝ :=
  -p.Z x k / (2 * (1 - p.rho k ^ 2))

/-- `denom = np.log(2 * np.pi) + torch.log(self.sigma).sum(-1)
    + .5 * torch.log(1 - self.rho ** 2)` from `log_prob`. -/
def denom (p : MixtureOfBivariateNormal K) (k : Fin K) : ℝ :=
  Real.log (2 * π) + (∑ i, Real.log (p.sigma k i)) + 0.5 * Real.log (1 - p.rho k ^ 2)

/-- `log_N = num - denom` from `log_prob`. -/
def logN (p : MixtureOfBivariateNormal K) (x : Fin 2 → ℝ) (k : Fin K) : ℝ :=
  p.num x k - p.denom k

/-- `MixtureOfBivariateNormal.log_prob`:
`torch.logsumexp(self.log_pi + log_N, dim=-1)`. -/
def log_prob (p : MixtureOfBivariateNormal K) (x : Fin 2 → ℝ) : ℝ :=
  logsumexp (fun k => p.log_pi k + p.logN x k)

/-- `MixtureOfBivariateNormal.sample`.  The categorical draw
(`self.log_pi.exp().multinomial(1)`) and the two standard-normal draws
(`torch.randn_like`) consume the process-wide random source; they enter the
embedding as the oracle `draw` (which is handed the exponentiated
log-weights, exactly the tensor the code passes to `multinomial`) and the
explicit normal draws `z1`, `z2`.  The `** .5` of the source is real
exponentiation (`Real.rpow`). -/
def sample (p : MixtureOfBivariateNormal K)
    (draw : (Fin K → ℝ) → Fin K) (z1 z2 : ℝ) : Fin 2 → ℝ :=
  let index := draw (fun k => Real.exp (p.log_pi k))
  let mu1 := p.mu index 0
  let mu2 := p.mu index 1
  let sigma1 := p.sigma index 0
  let sigma2 := p.sigma index 1
  let rho := p.rho index
  let x1 := mu1 + sigma1 * z1
  let mult := z2 * ((1 - rho ^ 2) ^ ((0.5 : ℝ))) + z1 * rho
  let x2 := mu2 + sigma2 * mult
  ![x1, x2]

end MixtureOfBivariateNormal

/-- Reference bivariate normal density, written from the spec:
`N = exp(-Z / (2(1-ρ²))) / (2π σ1 σ2 √(1-ρ²))` with
`Z = ((x1-μ1)/σ1)² + ((x2-μ2)/σ2)² − 2ρ·((x1-μ1)/σ1)·((x2-μ2)/σ2)`. -/
def bvnDensity (mu sigma : Fin 2 → ℝ) (rho : ℝ) (x : Fin 2 → ℝ) : ℝ :=
  (1 / (2 * π * sigma 0 * sigma 1 * Real.sqrt (1 - rho ^ 2))) *
    Real.exp (-(((x 0 - mu 0) / sigma 0) ^ 2 + ((x 1 - mu 1) / sigma 1) ^ 2 -
      2 * rho * ((x 0 - mu 0) / sigma 0) * ((x 1 - mu 1) / sigma 1)) /
      (2 * (1 - rho ^ 2)))

/-- Brute-force reference log-probability, written from the spec: the direct
sum of exponentials `log (Σ_k π_k · N_k)` with no log-sum-exp trick. -/
def bruteForceLogProb {K : ℕ} (p : MixtureOfBivariateNormal K) (x : Fin 2 → ℝ) : ℝ :=
  Real.log (∑ k, Real.exp (p.log_pi k) * bvnDensity (p.mu k) (p.sigma k) (p.rho k) x)

/-- For a component with positive standard deviations and correlation in
`(-1, 1)`, exponentiating the code's `log_N` recovers the reference
bivariate normal density. -/
theorem exp_logN_eq_bvnDensity {K : ℕ} (p : MixtureOfBivariateNormal K)
    (x : Fin 2 → ℝ) (k : Fin K) (hσ : ∀ i, 0 < p.sigma k i) (hρ : |p.rho k| < 1) :
    Real.exp (p.logN x k) = bvnDensity (p.mu k) (p.sigma k) (p.rho k) x := by
  have h1 : (0 : ℝ) < 1 - p.rho k ^ 2 := by
    have h2 : p.rho k ^ 2 < 1 := (sq_lt_one_iff_abs_lt_one (p.rho k)).2 hρ
    linarith
  have hs : (0 : ℝ) < Real.sqrt (1 - p.rho k ^ 2) := Real.sqrt_pos.2 h1
  have hd : Real.exp (p.denom k) =
      2 * π * p.sigma k 0 * p.sigma k 1 * Real.sqrt (1 - p.rho k ^ 2) := by
    rw [MixtureOfBivariateNormal.denom, Fin.sum_univ_two,
      show (0.5 : ℝ) * Real.log (1 - p.rho k ^ 2) =
        Real.log (Real.sqrt (1 - p.rho k ^ 2)) by rw [Real.log_sqrt h1.le]; ring,
      Real.exp_add, Real.exp_add, Real.exp_add,
      Real.exp_log (by positivity), Real.exp_log (hσ 0), Real.exp_log (hσ 1),
      Real.exp_log hs]
    ring
  have hz : p.Z x k =
      ((x 0 - p.mu k 0) / p.sigma k 0) ^ 2 + ((x 1 - p.mu k 1) / p.sigma k 1) ^ 2 -
        2 * p.rho k * ((x 0 - p.mu k 0) / p.sigma k 0) *
          ((x 1 - p.mu k 1) / p.sigma k 1) := by
    simp only [MixtureOfBivariateNormal.Z, MixtureOfBivariateNormal.t,
      Fin.sum_univ_two, Fin.prod_univ_two]
    ring
  rw [MixtureOfBivariateNormal.logN, MixtureOfBivariateNormal.num, hz,
    Real.exp_sub, hd, bvnDensity]
  field_simp

/-- C2: `MixtureOfBivariateNormal.log_prob` returns, for every valid
mixture parameter set (strictly positive standard deviations, correlations
in `(-1, 1)`) and every observed 2D point, the log-sum-exp over components
of (log-weight + bivariate-normal log-density), and this equals the
brute-force reference computation (direct sum of exponentials of the
reference density formula). -/
theorem log_prob_eq_bruteForceLogProb {K : ℕ} (p : MixtureOfBivariateNormal K)
    (x : Fin 2 → ℝ) (hσ : ∀ k i, 0 < p.sigma k i) (hρ : ∀ k, |p.rho k| < 1) :
    p.log_prob x = bruteForceLogProb p x := by
  unfold MixtureOfBivariateNormal.log_prob bruteForceLogProb logsumexp
  congr 1
  refine Finset.sum_congr rfl fun k _ => ?_
  rw [Real.exp_add, exp_logN_eq_bvnDensity p x k (hσ k) (hρ k)]

/-- A concrete one-component mixture (log-weight 0, mean 0, σ = 1, ρ = 0)
used to witness C2 at a specific input. -/
def mobnUnit : MixtureOfBivariateNormal 1 :=
  ⟨fun _ => 0, fun _ _ => 0, fun _ _ => 1, fun _ => 0⟩

/-- Witness for C2 at the concrete mixture `mobnUnit` and the origin. -/
theorem log_prob_eq_bruteForceLogProb_witness :
    mobnUnit.log_prob (fun _ => 0) = bruteForceLogProb mobnUnit (fun _ => 0) :=
  log_prob_eq_bruteForceLogProb mobnUnit (fun _ => 0)
    (fun _ _ => by norm_num [mobnUnit]) (fun _ => by norm_num [mobnUnit])

/-- C5: `MixtureOfBivariateNormal.sample` draws one 2D point by (1) drawing
the component index from the categorical oracle applied to the
exponentiated log-weights, (2) gathering that component's mean, sigma, rho,
and (3) returning `x1 = μ1 + σ1·z1` and
`x2 = μ2 + σ2·(z2·√(1−ρ²) + z1·ρ)` from the independent standard-normal
draws `z1`, `z2` (the Cholesky-style bivariate correlation structure). -/
theorem sample_eq_cholesky {K : ℕ} (p : MixtureOfBivariateNormal K)
    (draw : (Fin K → ℝ) → Fin K) (z1 z2 : ℝ) :
    p.sample draw z1 z2 =
      let index := draw (fun k => Real.exp (p.log_pi k))
      ![p.mu index 0 + p.sigma index 0 * z1,
        p.mu index 1 + p.sigma index 1 *
          (z2 * Real.sqrt (1 - p.rho index ^ 2) + z1 * p.rho index)] := by
  have h : ((1 - p.rho (draw fun k => Real.exp (p.log_pi k)) ^ 2) ^ ((0.5 : ℝ))) =
      Real.sqrt (1 - p.rho (draw fun k => Real.exp (p.log_pi k)) ^ 2) := by
    rw [Real.sqrt_eq_rpow]
    norm_num
  simp only [MixtureOfBivariateNormal.sample, h]

/-- The raw decoder output vector for one (batch, time) position, of width
`6K + 1`, and its conversion to mixture parameters.  Mirrors
`Seq2Seq.forward` lines 186-190:
`mu, sigma, pi, rho, eos = out.split([2K, 2K, K, K, 1], -1)`;
`sigma = exp(sigma)`; `rho = tanh(rho)`; `log_pi = log_softmax(pi)`;
`mu`, `sigma` reshaped row-major from width `2K` to `(K, 2)`.
`log_softmax` is embedded by its mathematical definition
`pi_k - log (Σ_j exp pi_j)`. -/
def splitTransform (K : ℕ) (raw : Fin (6 * K + 1) → ℝ) :
    MixtureOfBivariateNormal K × ℝ :=
  let muF : Fin K → Fin 2 → ℝ := fun k i =>
    raw ⟨2 * k.val + i.val, by have := k.isLt; have := i.isLt; omega⟩
  let sigmaF : Fin K → Fin 2 → ℝ := fun k i =>
    Real.exp (raw ⟨2 * K + (2 * k.val + i.val), by have := k.isLt; have := i.isLt; omega⟩)
  let logPiF : Fin K → ℝ := fun k =>
    raw ⟨4 * K + k.val, by have := k.isLt; omega⟩ -
      Real.log (∑ j : Fin K, Real.exp (raw ⟨4 * K + j.val, by have := j.isLt; omega⟩))
  let rhoF : Fin K → ℝ := fun k => Real.tanh (raw ⟨5 * K + k.val, by have := k.isLt; omega⟩)
  let eos : ℝ := raw ⟨6 * K, by omega⟩
  (⟨logPiF, muF, sigmaF, rhoF⟩, eos)

/-- `Real.tanh` is strictly between `-1` and `1`. -/
theorem tanh_mem_Ioo (y : ℝ) : -1 < Real.tanh y ∧ Real.tanh y < 1 := by
  have hc : 0 < Real.cosh y := Real.cosh_pos y
  rw [Real.tanh_eq_sinh_div_cosh]
  constructor
  · rw [lt_div_iff₀ hc]
    have h := Real.sinh_lt_cosh (-y)
    rw [Real.sinh_neg, Real.cosh_neg] at h
    linarith
  · rw [div_lt_one hc]
    exact Real.sinh_lt_cosh y

/-- C6: the mixture parameters derived from any raw decoder output vector
satisfy the invariants: exponentiated log-weights sum to `1`, every
standard deviation is strictly positive, every correlation lies strictly
in `(-1, 1)`. -/
theorem splitTransform_invariants (K : ℕ) (raw : Fin (6 * K + 1) → ℝ) (hK : 0 < K) :
    (∑ k, Real.exp ((splitTransform K raw).1.log_pi k)) = 1 ∧
      (∀ k i, 0 < (splitTransform K raw).1.sigma k i) ∧
      (∀ k, -1 < (splitTransform K raw).1.rho k ∧ (splitTransform K raw).1.rho k < 1) := by
  refine ⟨?_, fun k i => Real.exp_pos _, fun k => tanh_mem_Ioo _⟩
  have hne : (Finset.univ : Finset (Fin K)).Nonempty := by
    refine ⟨⟨0, hK⟩, Finset.mem_univ _⟩
  have hpos : 0 < ∑ j : Fin K, Real.exp (raw ⟨4 * K + j.val, by have := j.isLt; omega⟩) :=
    Finset.sum_pos (fun j _ => Real.exp_pos _) hne
  simp only [splitTransform, Real.exp_sub, Real.exp_log hpos]
  rw [← Finset.sum_div, div_self (ne_of_gt hpos)]

/-- Witness for C6 at `K = 1` and the all-zero raw output vector. -/
theorem splitTransform_invariants_witness :
    (∑ k, Real.exp ((splitTransform 1 (fun _ => 0)).1.log_pi k)) = 1 :=
  (splitTransform_invariants 1 (fun _ => 0) (by norm_num)).1

/-- `GaussianAttention`: the learned `nn.Linear(hidden_size, 3 * n_mixtures)`
is abstracted as an opaque function from the hidden state (of abstract type
`α`) to the `3 * Katt` projected values. -/
structure GaussianAttention (α : Type) (Katt : ℕ) where
  linear : α → Fin (3 * Katt) → ℝ

/-- Index of component `k` inside the first chunk (`alpha`) of the
`chunk(3, dim=-1)` split. -/
def idxA {Katt : ℕ} (k : Fin Katt) : Fin (3 * Katt) :=
  ⟨k.val, by have := k.isLt; omega⟩

/-- Index of component `k` inside the second chunk (`beta`). -/
def idxB {Katt : ℕ} (k : Fin Katt) : Fin (3 * Katt) :=
  ⟨Katt + k.val, by have := k.isLt; omega⟩

/-- Index of component `k` inside the third chunk (`kappa` increment). -/
def idxK {Katt : ℕ} (k : Fin Katt) : Fin (3 * Katt) :=
  ⟨2 * Katt + k.val, by have := k.isLt; omega⟩

/-- `GaussianAttention.forward` for one batch element:
`alpha, beta, kappa = torch.exp(self.linear(h_t)).chunk(3, dim=-1)`;
`kappa += k_tm1`;
`phi = (alpha * torch.exp(-beta * (kappa - u) ** 2)).sum(-1)`;
returns `((phi * ctx).sum(1), phi, kappa)`. -/
def GaussianAttention.forward {α : Type} {Katt T D : ℕ}
    (m : GaussianAttention α Katt) (h : α) (kPrev : Fin Katt → ℝ)
    (ctx : Fin T → Fin D → ℝ) :
    (Fin D → ℝ) × (Fin T → ℝ) × (Fin Katt → ℝ) :=
  let alpha : Fin Katt → ℝ := fun k => Real.exp (m.linear h (idxA k))
  let beta : Fin Katt → ℝ := fun k => Real.exp (m.linear h (idxB k))
  let kappa : Fin Katt → ℝ := fun k => Real.exp (m.linear h (idxK k)) + kPrev k
  let phi : Fin T → ℝ := fun u => ∑ k, alpha k * Real.exp (-beta k * (kappa k - (u.val : ℝ)) ^ 2)
  (fun d => ∑ u, phi u * ctx u d, phi, kappa)

/-- C3: for every hidden state, carried position state and context sequence,
the attention's returned per-position weight is
`φ(u) = Σ_k α_k · exp(−β_k · (κ_k − u)²)` with `α = exp(proj_A h)`,
`β = exp(proj_B h)`, `κ = exp(proj_K h) + κ_prev`, its returned context
vector is the plain weighted sum `Σ_u φ(u) · ctx[u]`, and its returned
position state is `κ`; `φ` enters the sum as-is, with no renormalization
over context positions. -/
theorem gaussianAttention_forward_eq {α : Type} {Katt T D : ℕ}
    (m : GaussianAttention α Katt) (h : α) (kPrev : Fin Katt → ℝ)
    (ctx : Fin T → Fin D → ℝ) :
    (m.forward h kPrev ctx).1 = (fun d => ∑ u : Fin T,
        (∑ k : Fin Katt, Real.exp (m.linear h (idxA k)) *
          Real.exp (-Real.exp (m.linear h (idxB k)) *
            ((Real.exp (m.linear h (idxK k)) + kPrev k) - (u.val : ℝ)) ^ 2)) * ctx u d) ∧
      (m.forward h kPrev ctx).2.1 = (fun u : Fin T =>
        ∑ k : Fin Katt, Real.exp (m.linear h (idxA k)) *
          Real.exp (-Real.exp (m.linear h (idxB k)) *
            ((Real.exp (m.linear h (idxK k)) + kPrev k) - (u.val : ℝ)) ^ 2)) ∧
      (m.forward h kPrev ctx).2.2 =
        (fun k => Real.exp (m.linear h (idxK k)) + kPrev k) :=
  ⟨rfl, rfl, rfl⟩

/-- The κ sequence obtained by threading the attention's returned position
state back in as the next carried position state, across successive
invocations with hidden states `hs 0, hs 1, ...`. -/
def kappaIter {α : Type} {Katt T D : ℕ} (m : GaussianAttention α Katt)
    (hs : ℕ → α) (ctx : Fin T → Fin D → ℝ) (k0 : Fin Katt → ℝ) : ℕ → Fin Katt → ℝ
  | 0 => k0
  | n + 1 => (m.forward (hs n) (kappaIter m hs ctx k0 n) ctx).2.2

/-- C4: across any sequence of attention invocations that threads the
returned κ back in as the carried position state, κ is component-wise
non-decreasing: each invocation returns `κ_prev + exp(proj_K h) ≥ κ_prev`. -/
theorem kappaIter_monotone {α : Type} {Katt T D : ℕ} (m : GaussianAttention α Katt)
    (hs : ℕ → α) (ctx : Fin T → Fin D → ℝ) (k0 : Fin Katt → ℝ) (n : ℕ) (i : Fin Katt) :
    kappaIter m hs ctx k0 n i ≤ kappaIter m hs ctx k0 (n + 1) i := by
  show kappaIter m hs ctx k0 n i ≤
    Real.exp (m.linear (hs n) (idxK i)) + kappaIter m hs ctx k0 n i
  have := Real.exp_pos (m.linear (hs n) (idxK i))
  linarith

/-- `RNNDecoder` with `N` layers.  The learned LSTM cells, the attention
sub-module and the output projection are library components and enter the
embedding as opaque functions; what is embedded exactly is the wiring of
`RNNDecoder.forward`.  `layer0` receives the concatenation
`[x_t ‖ w_tm1]` (as an ordered pair) and `(h0, c0)`; each `layerN j`
receives `[x_t ‖ w ‖ h_prev_layer]` and a previous `(h, c)` pair;
`output` receives the concatenation of all `N` hidden states (as the
ordered family). -/
structure RNNDecoder (P C H Kap Ctx Out : Type) (N : ℕ) where
  layer0 : P → C → H × H → H × H
  layerN : Fin (N - 1) → P → C → H → H × H → H × H
  attention : H → Kap → Ctx → C × Kap
  output : (Fin N → H) → Out

/-- Carried decoder state `(h_tm1, c_tm1, w_tm1, k_tm1)`. -/
structure DecState (C H Kap : Type) (N : ℕ) where
  h : Fin N → H
  c : Fin N → H
  w : C
  k : Kap

/-- The inner loop of `RNNDecoder.forward`:
`for j, (layer, prev_h, prev_c) in enumerate(zip(self.layer_n, h_tm1[1:], c_tm1[1:]))`.
`hPre`/`cPre` are the slices `h_tm1[1:]`, `c_tm1[1:]` taken before the loop
starts (Python materializes them once, so later writes do not affect them);
iteration `j` reads `h_tm1[j-1]` from the *current* mutated list (Python
index `-1`, i.e. `N-1`, when `j = 0`), reads the previous layer state from
the slice at position `j` (original index `j+1`), and writes the cell's
result into position `j` of the current list. -/
def innerLoop {P C H Kap Ctx Out : Type} {N : ℕ} (d : RNNDecoder P C H Kap Ctx Out N)
    (hN : 0 < N) (x : P) (w : C) (hPre cPre : Fin N → H) :
    ℕ → (Fin N → H) × (Fin N → H) → (Fin N → H) × (Fin N → H)
  | 0, hc => hc
  | m + 1, hc =>
    let hc' := innerLoop d hN x w hPre cPre m hc
    if hm : m < N - 1 then
      let writeIdx : Fin N := ⟨m, by omega⟩
      let prevIdx : Fin N := if m = 0 then ⟨N - 1, by omega⟩ else ⟨m - 1, by omega⟩
      let res := d.layerN ⟨m, hm⟩ x w (hc'.1 prevIdx)
        (hPre ⟨m + 1, by omega⟩, cPre ⟨m + 1, by omega⟩)
      (Function.update hc'.1 writeIdx res.1, Function.update hc'.2 writeIdx res.2)
    else hc'

/-- One iteration of the step loop of `RNNDecoder.forward`:
`h_tm1[0], c_tm1[0] = self.layer_0(cat([x_t, w_tm1]), (h_tm1[0], c_tm1[0]))`;
`w_tm1, phi, k_tm1 = self.attention(h_tm1[0], k_tm1, context)`;
the inner layer loop; `out = self.output(cat(h_tm1))`. -/
def decStep {P C H Kap Ctx Out : Type} {N : ℕ} (d : RNNDecoder P C H Kap Ctx Out N)
    (hN : 0 < N) (ctx : Ctx) (x : P) (s : DecState C H Kap N) :
    Out × DecState C H Kap N :=
  let i0 : Fin N := ⟨0, hN⟩
  let r0 := d.layer0 x s.w (s.h i0, s.c i0)
  let h1 := Function.update s.h i0 r0.1
  let c1 := Function.update s.c i0 r0.2
  let aw := d.attention r0.1 s.k ctx
  let hc := innerLoop d hN x aw.1 h1 c1 (N - 1) (h1, c1)
  (d.output hc.1, ⟨hc.1, hc.2, aw.1, aw.2⟩)

/-- `RNNDecoder.forward` over a stroke sequence: iterate `decStep`,
collecting the per-step outputs and returning the final carried state. -/
def decForward {P C H Kap Ctx Out : Type} {N : ℕ} (d : RNNDecoder P C H Kap Ctx Out N)
    (hN : 0 < N) (ctx : Ctx) :
    List P → DecState C H Kap N → List Out × DecState C H Kap N
  | [], s => ([], s)
  | x :: xs, s =>
    let r := decStep d hN ctx x s
    let rest := decForward d hN ctx xs r.2
    (r.1 :: rest.1, rest.2)

/-- The inner loop never writes position `N - 1`: every write goes to an
index `m < N - 1`. -/
theorem innerLoop_last {P C H Kap Ctx Out : Type} {N : ℕ}
    (d : RNNDecoder P C H Kap Ctx Out N) (hN : 0 < N) (x : P) (w : C)
    (hPre cPre : Fin N → H) (m : ℕ) (hc : (Fin N → H) × (Fin N → H)) :
    (innerLoop d hN x w hPre cPre m hc).1 ⟨N - 1, by omega⟩ = hc.1 ⟨N - 1, by omega⟩ ∧
      (innerLoop d hN x w hPre cPre m hc).2 ⟨N - 1, by omega⟩ = hc.2 ⟨N - 1, by omega⟩ := by
  induction m with
  | zero => exact ⟨rfl, rfl⟩
  | succ m ih =>
    rw [innerLoop]
    by_cases hm : m < N - 1
    · have hne : (⟨N - 1, by omega⟩ : Fin N) ≠ ⟨m, by omega⟩ := by
        simp only [ne_eq, Fin.mk.injEq]
        omega
      simp only [hm, dif_pos]
      rw [Function.update_noteq hne, Function.update_noteq hne]
      exact ih
    · simp only [hm, dif_neg, not_false_iff]
      exact ih

/-- A single decoder step leaves the hidden and cell state of the last
layer untouched when `N ≥ 2`, and its emitted output is the projection of
a hidden family whose last entry is that untouched hidden state. -/
theorem decStep_last {P C H Kap Ctx Out : Type} {N : ℕ}
    (d : RNNDecoder P C H Kap Ctx Out N) (hN : 0 < N) (h2 : 2 ≤ N)
    (ctx : Ctx) (x : P) (s : DecState C H Kap N) :
    (decStep d hN ctx x s).2.h ⟨N - 1, by omega⟩ = s.h ⟨N - 1, by omega⟩ ∧
      (decStep d hN ctx x s).2.c ⟨N - 1, by omega⟩ = s.c ⟨N - 1, by omega⟩ ∧
      (decStep d hN ctx x s).1 = d.output ((decStep d hN ctx x s).2.h) := by
  have hne : (⟨N - 1, by omega⟩ : Fin N) ≠ ⟨0, hN⟩ := by
    simp only [ne_eq, Fin.mk.injEq]
    omega
  have hil := innerLoop_last d hN x
    (d.attention (d.layer0 x s.w (s.h ⟨0, hN⟩, s.c ⟨0, hN⟩)).1 s.k ctx).1
    (Function.update s.h ⟨0, hN⟩ (d.layer0 x s.w (s.h ⟨0, hN⟩, s.c ⟨0, hN⟩)).1)
    (Function.update s.c ⟨0, hN⟩ (d.layer0 x s.w (s.h ⟨0, hN⟩, s.c ⟨0, hN⟩)).2)
    (N - 1)
    (Function.update s.h ⟨0, hN⟩ (d.layer0 x s.w (s.h ⟨0, hN⟩, s.c ⟨0, hN⟩)).1,
     Function.update s.c ⟨0, hN⟩ (d.layer0 x s.w (s.h ⟨0, hN⟩, s.c ⟨0, hN⟩)).2)
  refine ⟨?_, ?_, rfl⟩
  · show (innerLoop d hN x _ _ _ (N - 1) _).1 ⟨N - 1, by omega⟩ = _
    rw [hil.1]
    exact Function.update_noteq hne _ _
  · show (innerLoop d hN x _ _ _ (N - 1) _).2 ⟨N - 1, by omega⟩ = _
    rw [hil.2]
    exact Function.update_noteq hne _ _

/-- C7: in every decoder forward call with `N ≥ 2` layers, the hidden and
cell state of the last layer (index `N - 1`) are never written during the
step loop — after any number of steps the returned carried state still
holds the entry values — while every emitted output is the projection of a
hidden family whose entry at `N - 1` is that frozen entry value. -/
theorem decForward_last_layer_frozen {P C H Kap Ctx Out : Type} {N : ℕ}
    (d : RNNDecoder P C H Kap Ctx Out N) (hN : 0 < N) (h2 : 2 ≤ N)
    (ctx : Ctx) (xs : List P) (s0 : DecState C H Kap N) :
    (decForward d hN ctx xs s0).2.h ⟨N - 1, by omega⟩ = s0.h ⟨N - 1, by omega⟩ ∧
      (decForward d hN ctx xs s0).2.c ⟨N - 1, by omega⟩ = s0.c ⟨N - 1, by omega⟩ ∧
      ∀ o ∈ (decForward d hN ctx xs s0).1, ∃ hf : Fin N → H,
        o = d.output hf ∧ hf ⟨N - 1, by omega⟩ = s0.h ⟨N - 1, by omega⟩ := by
  induction xs generalizing s0 with
  | nil => exact ⟨rfl, rfl, fun o ho => absurd ho (List.not_mem_nil o)⟩
  | cons x xs ih =>
    have hstep := decStep_last d hN h2 ctx x s0
    have hrest := ih ((decStep d hN ctx x s0).2)
    refine ⟨by rw [show (decForward d hN ctx (x :: xs) s0).2 =
        (decForward d hN ctx xs (decStep d hN ctx x s0).2).2 from rfl, hrest.1, hstep.1],
      by rw [show (decForward d hN ctx (x :: xs) s0).2 =
        (decForward d hN ctx xs (decStep d hN ctx x s0).2).2 from rfl, hrest.2.1, hstep.2.1],
      ?_⟩
    intro o ho
    rw [show (decForward d hN ctx (x :: xs) s0).1 =
      (decStep d hN ctx x s0).1 :: (decForward d hN ctx xs (decStep d hN ctx x s0).2).1
      from rfl] at ho
    rcases List.mem_cons.1 ho with h | h
    · exact ⟨(decStep d hN ctx x s0).2.h, by rw [h, hstep.2.2], by rw [hstep.1]⟩
    · obtain ⟨hf, h1, h2'⟩ := hrest.2.2 o h
      exact ⟨hf, h1, by rw [h2', hstep.1]⟩

/-- A concrete two-layer decoder over `ℕ` used to evaluate the step loop at
a specific input.  `layer0` always produces `(1, 2)`; the single subsequent
cell produces `(100 + h_prev_layer, 200 + prev_h)`, so its output encodes
which hidden values were fed to it; the attention returns the new `h0` as
the context vector and leaves κ unchanged. -/
def d2 : RNNDecoder ℕ ℕ ℕ ℕ ℕ ℕ 2 where
  layer0 := fun _ _ _ => (1, 2)
  layerN := fun _ _ _ hprev pc => (100 + hprev, 200 + pc.1)
  attention := fun h k _ => (h, k)
  output := fun f => 1000 * f ⟨0, by omega⟩ + f ⟨1, by omega⟩

/-- A concrete entry state for `d2`: `h = [10, 20]`, `c = [30, 40]`,
`w = 5`, `κ = 6`. -/
def s0d : DecState ℕ ℕ ℕ 2 := ⟨![10, 20], ![30, 40], 5, 6⟩

/-- C1 (evaluation of the code at the failing input): with `N = 2` layers,
after one step of the loop in `RNNDecoder.forward` the subsequent layer's
slot `(h_1, c_1)` still holds its entry values `(20, 40)` — the claimed
"produces the new `(h_j, c_j)` of layer `j`" never happens — while slot 0
holds `(120, 220)`, i.e. the subsequent cell's result computed from the
stale entry value `20` of `h_tm1[-1]` (had the cell consumed the current
step's `h_0 = 1` as the claim states, it would have produced
`(101, 220)`).  The loop `for j, ... in enumerate(zip(self.layer_n,
h_tm1[1:], c_tm1[1:]))` writes `h_tm1[j], c_tm1[j]` with `j` starting at
`0` instead of `1`. -/
theorem decoder_inner_loop_miswired :
    (decStep d2 (by norm_num) 0 7 s0d).2.h ⟨1, by omega⟩ = 20 ∧
      (decStep d2 (by norm_num) 0 7 s0d).2.c ⟨1, by omega⟩ = 40 ∧
      (decStep d2 (by norm_num) 0 7 s0d).2.h ⟨0, by omega⟩ = 120 ∧
      (decStep d2 (by norm_num) 0 7 s0d).2.c ⟨0, by omega⟩ = 220 := by
  refine ⟨rfl, rfl, rfl, rfl⟩

/-- Witness for C7 at the concrete two-layer decoder `d2`, two steps. -/
theorem decForward_last_layer_frozen_witness :
    (decForward d2 (by norm_num) 0 [7, 8] s0d).2.h ⟨1, by omega⟩ = s0d.h ⟨1, by omega⟩ :=
  (decForward_last_layer_frozen d2 (by norm_num) (by norm_num) 0 [7, 8] s0d).1

/-- The loop of `Seq2Seq.sample`:
`for i in range(maxlen): strokes.append(x_t); ...; x_t = <new point>`.
Each iteration appends its *input* point and only then computes the next
point; `step` packages one decoder step plus the mixture/Bernoulli draw
(with its randomness folded into the threaded state `S`). -/
def sampleLoop {P S : Type} (step : P → S → P × S) : ℕ → P → S → List P
  | 0, _, _ => []
  | n + 1, x, s => x :: sampleLoop step n (step x s).1 (step x s).2

/-- The generated trajectory: `traj step x0 s0 t` is the (point, state)
pair formed after `t` loop iterations (`t = 0` being the start point). -/
def traj {P S : Type} (step : P → S → P × S) (x : P) (s : S) : ℕ → P × S
  | 0 => (x, s)
  | t + 1 => step (traj step x s t).1 (traj step x s t).2

/-- `Seq2Seq.sample`: the start point is the all-zero stroke point
`torch.zeros(.., 3)`, and the loop runs for exactly `maxlen` iterations. -/
def seq2seqSample {S : Type} (step : (Fin 3 → ℝ) → S → (Fin 3 → ℝ) × S)
    (s0 : S) (maxlen : ℕ) : List (Fin 3 → ℝ) :=
  sampleLoop step maxlen (fun _ => 0) s0

/-- The trajectory after one step equals the trajectory restarted from the
first stepped pair. -/
theorem traj_shift {P S : Type} (step : P → S → P × S) (x : P) (s : S) (t : ℕ) :
    traj step x s (t + 1) = traj step (step x s).1 (step x s).2 t := by
  induction t with
  | zero => rfl
  | succ t ih =>
    show step (traj step x s (t + 1)).1 (traj step x s (t + 1)).2 = _
    rw [ih]
    rfl

/-- `sampleLoop` returns one point per iteration. -/
theorem sampleLoop_length {P S : Type} (step : P → S → P × S) :
    ∀ (n : ℕ) (x : P) (s : S), (sampleLoop step n x s).length = n
  | 0, _, _ => rfl
  | n + 1, x, s => by
    show (sampleLoop step n (step x s).1 (step x s).2).length + 1 = n + 1
    rw [sampleLoop_length step n]

/-- The `t`-th returned point is the point formed after `t` iterations. -/
theorem sampleLoop_getD {P S : Type} (step : P → S → P × S) (dflt : P) :
    ∀ (n : ℕ) (x : P) (s : S) (t : ℕ), t < n →
      (sampleLoop step n x s).getD t dflt = (traj step x s t).1 := by
  intro n
  induction n with
  | zero => intro x s t ht; omega
  | succ n ih =>
    intro x s t ht
    cases t with
    | zero => rfl
    | succ t =>
      show (sampleLoop step n (step x s).1 (step x s).2).getD t dflt = _
      rw [traj_shift]
      exact ih _ _ t (by omega)

/-- C8: for every generation call with `maxlen ≥ 1`, the returned stroke
sequence has exactly `maxlen` time steps; its first time step is the
all-zero start point; each time step `t` is the point formed in iteration
`t - 1` (the trajectory point after `t` iterations); and, the list holding
only indices `0, ..., maxlen - 1`, the point sampled in the final
iteration (`traj ... maxlen`) is not included. -/
theorem seq2seqSample_spec {S : Type} (step : (Fin 3 → ℝ) → S → (Fin 3 → ℝ) × S)
    (s0 : S) (maxlen : ℕ) (hm : 1 ≤ maxlen) :
    (seq2seqSample step s0 maxlen).length = maxlen ∧
      (seq2seqSample step s0 maxlen).getD 0 (fun _ => 37) = (fun _ => 0) ∧
      ∀ t, t < maxlen →
        (seq2seqSample step s0 maxlen).getD t (fun _ => 37) =
          (traj step (fun _ => 0) s0 t).1 :=
  ⟨sampleLoop_length step maxlen _ s0,
    sampleLoop_getD step (fun _ => 37) maxlen _ s0 0 hm,
    fun t ht => sampleLoop_getD step (fun _ => 37) maxlen _ s0 t ht⟩

/-- Witness for C8 at a concrete step function and `maxlen = 3`. -/
theorem seq2seqSample_spec_witness :
    (seq2seqSample (S := ℕ) (fun x n => (fun i => x i + 1, n + 1)) 0 3).length = 3 :=
  (seq2seqSample_spec (fun x n => (fun i => x i + 1, n + 1)) 0 3 (by norm_num)).1

/-- A minimal shaped tensor: a shape together with row-major flat data.
Used where a claim is about the shape of a result. -/
structure STensor where
  shape : List ℕ
  data : List ℝ

/-- `torch.Tensor.mean()` with no dimension argument: reduces over all
elements to a 0-dimensional tensor. -/
def STensor.mean (t : STensor) : STensor :=
  ⟨[], [t.data.sum / (t.data.length : ℝ)]⟩

/-- Row-major flattening of a `(B, T)` grid of reals. -/
def flatten2 (B T : ℕ) (f : Fin B → Fin T → ℝ) : List ℝ :=
  (List.finRange B).flatMap fun b => (List.finRange T).map (f b)

/-- The logistic sigmoid. -/
def sigmoid (z : ℝ) : ℝ := 1 / (1 + Real.exp (-z))

/-- One element of `F.binary_cross_entropy_with_logits`:
`-(y·log σ(z) + (1-y)·log(1-σ(z)))`. -/
def bceWithLogits (z y : ℝ) : ℝ :=
  -(y * Real.log (sigmoid z) + (1 - y) * Real.log (1 - sigmoid z))

/-- The loss computation of `Seq2Seq.forward` (lines 186-198), taking the
decoder output grid `rawOut` (one raw vector of width `6K + 1` per
(batch, time) position) and the teacher-forced strokes: parameters are
derived per position by `splitTransform`, the per-position stroke NLL grid
`-log_prob` has shape `(B, T)` and is reduced by `.mean()`, and the eos
loss is `binary_cross_entropy_with_logits` with its default `mean`
reduction over the `(B, T)` grid.  Returns the pair
`(stroke_loss.mean(), eos_loss)`. -/
def seq2seqLosses (B T K : ℕ) (rawOut : Fin B → Fin T → Fin (6 * K + 1) → ℝ)
    (strokes : Fin B → Fin T → Fin 3 → ℝ) : STensor × STensor :=
  let nll : Fin B → Fin T → ℝ := fun b t =>
    -((splitTransform K (rawOut b t)).1.log_prob
        (fun i => strokes b t ⟨i.val, by have := i.isLt; omega⟩))
  let strokeLossGrid : STensor := ⟨[B, T], flatten2 B T nll⟩
  let eosGrid : STensor := ⟨[B, T], flatten2 B T (fun b t =>
    bceWithLogits ((splitTransform K (rawOut b t)).2) (strokes b t ⟨2, by omega⟩))⟩
  (strokeLossGrid.mean, eosGrid.mean)

/-- C9 counterexample: at the claim's own configuration (`batch = 2`,
`T = 5`, `K_output = 3`) the two returned losses have shape `[]`
(0-dimensional scalars: `stroke_loss.mean()` and the default-`mean`-reduced
BCE), not shape `(batch,) = [2]` as claimed. -/
theorem seq2seqLosses_shape_counterexample :
    (seq2seqLosses 2 5 3 (fun _ _ _ => 0) (fun _ _ _ => 0)).1.shape ≠ [2] ∧
      (seq2seqLosses 2 5 3 (fun _ _ _ => 0) (fun _ _ _ => 0)).2.shape ≠ [2] := by
  constructor
  · show ([] : List ℕ) ≠ [2]
    simp
  · show ([] : List ℕ) ≠ [2]
    simp

/-- C9 amended: the training-mode loss computation returns, for every
batched input, a stroke loss and an eos loss that are both 0-dimensional
scalars (shape `[]`, a single value): the stroke loss is the mean of the
`(B, T)` grid of per-position negative log-likelihoods, and the eos loss
is the mean-reduced binary cross-entropy. -/
theorem seq2seqLosses_scalar (B T K : ℕ) (rawOut : Fin B → Fin T → Fin (6 * K + 1) → ℝ)
    (strokes : Fin B → Fin T → Fin 3 → ℝ) :
    (seq2seqLosses B T K rawOut strokes).1.shape = [] ∧
      (seq2seqLosses B T K rawOut strokes).1.data.length = 1 ∧
      (seq2seqLosses B T K rawOut strokes).2.shape = [] ∧
      (seq2seqLosses B T K rawOut strokes).2.data.length = 1 :=
  ⟨rfl, rfl, rfl, rfl⟩

/-- A one-component mixture with an *invalid* standard deviation
(`σ = (-1, -1)`, non-positive), log-weight `0`, mean `0`, `ρ = 0`. -/
def mobnInvalidSigma : MixtureOfBivariateNormal 1 :=
  ⟨fun _ => 0, fun _ _ => 0, fun _ _ => -1, fun _ => 0⟩

/-- C10 counterexample: fed the invalid (non-positive) standard deviation
`σ = (-1, -1)`, `MixtureOfBivariateNormal.log_prob` does not fail at all:
the constructor stores the parameters unchecked and `log_prob` evaluates
its formula and returns an ordinary value (`-log 2π` here; at IEEE-float
level the same unchecked evaluation yields silent `NaN`), never a
categorized invalid-distribution-parameter error. -/
theorem log_prob_no_failfast_counterexample :
    mobnInvalidSigma.log_prob (fun _ => 0) = -Real.log (2 * π) := by
  simp only [mobnInvalidSigma, MixtureOfBivariateNormal.log_prob, logsumexp,
    MixtureOfBivariateNormal.logN, MixtureOfBivariateNormal.num,
    MixtureOfBivariateNormal.denom, MixtureOfBivariateNormal.Z,
    MixtureOfBivariateNormal.t, Fin.sum_univ_one, Fin.sum_univ_two,
    Fin.prod_univ_two]
  norm_num [Real.log_exp]

/-- C10 amended: no fail-fast validation exists.  For *every* strictly
negative standard-deviation value `sv` (an invalid distribution
parameter), every log-weight, mean and observation, the mixture density
silently accepts the parameters and `log_prob` returns the unchecked
formula value — a garbage number (`NaN` in floating point) — rather than
failing with a categorized error. -/
theorem log_prob_total_on_invalid_sigma (sv : ℝ) (_hsv : sv < 0) (lp : ℝ)
    (m : Fin 2 → ℝ) (x : Fin 2 → ℝ) :
    (⟨fun _ => lp, fun _ => m, fun _ _ => sv, fun _ => 0⟩ :
        MixtureOfBivariateNormal 1).log_prob x =
      lp - (((x 0 - m 0) / sv) ^ 2 + ((x 1 - m 1) / sv) ^ 2) / 2 -
        Real.log (2 * π) - 2 * Real.log sv := by
  simp only [MixtureOfBivariateNormal.log_prob, logsumexp,
    MixtureOfBivariateNormal.logN, MixtureOfBivariateNormal.num,
    MixtureOfBivariateNormal.denom, MixtureOfBivariateNormal.Z,
    MixtureOfBivariateNormal.t, Fin.sum_univ_one, Fin.sum_univ_two,
    Fin.prod_univ_two]
  norm_num [Real.log_exp]
  ring

/-- Witness for the amended C10 at `sv = -1`, zero means, the origin. -/
theorem log_prob_total_on_invalid_sigma_witness :
    (⟨fun _ => 0, fun _ => fun _ => 0, fun _ _ => -1, fun _ => 0⟩ :
        MixtureOfBivariateNormal 1).log_prob (fun _ => 0) =
      0 - (((0 - 0) / (-1 : ℝ)) ^ 2 + ((0 - 0) / (-1 : ℝ)) ^ 2) / 2 -
        Real.log (2 * π) - 2 * Real.log (-1) :=
  log_prob_total_on_invalid_sigma (-1) (by norm_num) 0 (fun _ => 0) (fun _ => 0)

end HandwritingSynthesis
